import Mathlib

/-!
Shallow embedding of the dcp_downloader pipeline in Lean.

Python dicts are modelled as insertion-ordered association lists with
in-place value overwrite; Python sets as first-occurrence-deduplicated
lists (CPython set iteration order is implementation dependent, so the
theorems about set-valued results are kept order-robust where possible).
Machine integers are Int or Nat; fallible calls return Option or Except,
an Except.error standing for an uncaught Python exception. External
network calls are oracle function parameters.
-/

namespace Dcp

/-- Membership test for a key of a Python dict modelled as an association list. -/
def keyMem [DecidableEq α] (m : List (α × β)) (k : α) : Bool :=
  m.any (fun p => decide (p.1 = k))

/-- Lookup in a Python dict modelled as an association list (first matching key). -/
def pyLookup [DecidableEq α] : List (α × β) → α → Option β
  | [], _ => none
  | p :: rest, k => if p.1 = k then some p.2 else pyLookup rest k

/-- Assignment d[k] = v on a Python dict: overwrite in place, append when the key is new. -/
def pyUpsert [DecidableEq α] : List (α × β) → α → β → List (α × β)
  | [], k, v => [(k, v)]
  | p :: rest, k, v => if p.1 = k then (k, v) :: rest else p :: pyUpsert rest k v

def pyDedupAux [DecidableEq α] : List α → List α → List α
  | _, [] => []
  | seen, a :: l => if a ∈ seen then pyDedupAux seen l else a :: pyDedupAux (a :: seen) l

/-- Model of building set(xs): keep the first occurrence of each element. -/
def pyDedup [DecidableEq α] (l : List α) : List α := pyDedupAux [] l

/-- Bool test that the second list starts with the first-argument pattern. -/
def leadsWith : List Char → List Char → Bool
  | [], _ => true
  | _ :: _, [] => false
  | p :: ps, c :: cs => decide (p = c) && leadsWith ps cs

/-- Bool test for a contiguous substring occurrence of the pattern. -/
def hasSub (pat : List Char) : List Char → Bool
  | [] => decide (pat = [])
  | c :: t => leadsWith pat (c :: t) || hasSub pat t

/-- Longest prefix of decimal digits. -/
def digitRun : List Char → List Char
  | [] => []
  | c :: cs => if c.isDigit then c :: digitRun cs else []

/-- Decimal value of a digit string. -/
def digitsToNat (ds : List Char) : Nat :=
  ds.foldl (fun a c => 10 * a + (c.toNat - '0'.toNat)) 0

def isPySpace (c : Char) : Bool := c = ' ' || c = '\t' || c = '\n' || c = '\r'

/-- Model of Python int(s) on a string: strip surrounding whitespace, accept an
optional sign followed by one or more ASCII digits; none models the ValueError
raise. (Digit-group underscores and non-ASCII digits, which Python would also
accept, do not occur in this code base and are not modelled.) -/
def pyIntParse (cs : List Char) : Option Int :=
  let t := ((cs.dropWhile isPySpace).reverse.dropWhile isPySpace).reverse
  match t with
  | '-' :: ds =>
    if ¬ ds = [] ∧ ds.all Char.isDigit then some (-(digitsToNat ds : Int)) else none
  | '+' :: ds =>
    if ¬ ds = [] ∧ ds.all Char.isDigit then some ((digitsToNat ds : Int)) else none
  | ds =>
    if ¬ ds = [] ∧ ds.all Char.isDigit then some ((digitsToNat ds : Int)) else none

/-- Split at the first occurrence of the separator; the second component is
none when the separator does not occur. -/
def splitFirstChar (sep : Char) : List Char → List Char × Option (List Char)
  | [] => ([], none)
  | c :: cs =>
    if c = sep then ([], some cs)
    else
      let r := splitFirstChar sep cs
      (c :: r.1, r.2)

def isSchemeChar (c : Char) : Bool := c.isAlpha || c.isDigit || c = '+' || c = '-' || c = '.'

/-- Drop a leading url scheme the way urlparse does: a valid scheme prefix
before the first colon is removed, otherwise the input is unchanged. -/
def splitScheme (cs : List Char) : List Char :=
  match splitFirstChar ':' cs with
  | (pre, some rest) =>
    (match pre with
     | [] => cs
     | p0 :: pr => if p0.isAlpha && pr.all isSchemeChar then rest else cs)
  | (_, none) => cs

/-- Drop a leading double-slash netloc component the way urlparse does. -/
def splitNetloc : List Char → List Char
  | '/' :: '/' :: rest => rest.dropWhile (fun c => !(c = '/' || c = '?' || c = '#'))
  | cs => cs

/-- Path and query of urlparse(href): scheme and netloc are removed, the
fragment is cut at the first hash sign, the query starts after the first
question mark. -/
def urlPathQuery (href : List Char) : List Char × List Char :=
  let u2 := splitNetloc (splitScheme href)
  let u3 := (splitFirstChar '#' u2).1
  match splitFirstChar '?' u3 with
  | (p, some q) => (p, q)
  | (p, none) => (p, [])

/-- Suffix after the last slash (the whole list when no slash occurs);
the str.split slash, last element. -/
def lastSegment (p : List Char) : List Char :=
  (p.reverse.takeWhile (fun c => !(c = '/'))).reverse

/-- Model of the params split of urlparse: cut the path at the first semicolon
that occurs after the last slash. -/
def splitParamsPath (p : List Char) : List Char :=
  let aft := lastSegment p
  match splitFirstChar ';' aft with
  | (a, some _) => (p.take (p.length - aft.length)) ++ a
  | (_, none) => p

inductive DLErr where
  | valueErrorInt
  | linkWithoutToken
  | invalidJsonApi
  | docNameError

deriving instance DecidableEq for DLErr

def apiHost : String := "www.dailycodingproblem.com"

def apiPath : String := "api/solution"

/-- Model of Html_Service.get_problem_number: parse the trailing path segment
of the link as an int; none models the ValueError raise. -/
def get_problem_number (href : String) : Option Int :=
  pyIntParse (lastSegment (splitParamsPath (urlPathQuery href.data).1))

/-- Model of Html_Service.get_api_link_from_href: keep the query (the token
check is a substring search), rebuild the url against the api host and path. -/
def get_api_link_from_href (href : String) : Except DLErr String :=
  let query := (urlPathQuery href.data).2
  if hasSub "token".data query then
    Except.ok ("https://" ++ apiHost ++ "/" ++ apiPath ++
      (match query with
       | [] => ""
       | _ :: _ => "?" ++ String.mk query))
  else Except.error DLErr.linkWithoutToken

inductive ApiJson where
  | notJson
  | jsonFalsy
  | jsonObj (problemId : Int) (problem : String) (solution : String)

deriving instance DecidableEq for ApiJson

/-- Model of Html_Service.get_api_content_as_md on the parsed response: a
non-JSON response raises InvalidJsonApiError; a falsy JSON value leaves the
local doc variable unbound so the return raises NameError; otherwise the
markdown document is produced from the three response fields. -/
def get_api_content_as_md (resp : ApiJson) : Except DLErr String :=
  match resp with
  | ApiJson.notJson => Except.error DLErr.invalidJsonApi
  | ApiJson.jsonFalsy => Except.error DLErr.docNameError
  | ApiJson.jsonObj pid prob sol =>
    Except.ok ("## Problem #" ++ toString pid ++ "\n" ++ prob ++ "\n## Solution\n" ++ sol)

/-- Zero padding of the Python format spec 03d (sign first, then padding). -/
def zeroPad3 (n : Int) : String :=
  let s := Nat.repr n.natAbs
  let w := if n < 0 then 2 else 3
  let s2 := if s.length < w then String.mk (List.replicate (w - s.length) '0') ++ s else s
  (if n < 0 then "-" else "") ++ s2

/-- Filesystem state: the set of created directories and the written files.
Path joins are modelled as slash concatenation (the difficulty labels in this
code base are plain words, so the absolute-path corner of os.path.join does
not arise). -/
structure FS where
  dirs : List String
  files : List (String × String)

deriving instance DecidableEq for FS

/-- Model of save_content_to_file: compute the target path, create the
difficulty directory when absent, write the file, return the path. -/
def save_content_to_file (problem_id : Int) (difficulty content : String) (fs : FS) :
    FS × String :=
  let solution_dir := "solutions/" ++ difficulty
  let file_path := solution_dir ++ "/problem_" ++ zeroPad3 problem_id ++ ".md"
  let fs1 := if solution_dir ∈ fs.dirs then fs else FS.mk (fs.dirs ++ [solution_dir]) fs.files
  (FS.mk fs1.dirs (pyUpsert fs1.files file_path content), file_path)

/-- Outcome of the loop body of download_content_from_links for one link. -/
inductive StepRes where
  | abortBatch (e : DLErr)
  | breakLoop
  | resolved (path : String) (fs : FS)

/-- Body of the download_content_from_links loop for one link: parse the
problem id (an uncaught ValueError aborts the batch), break out of the loop
when the id is not a collected problem, build the api link (no token aborts),
fetch and format the content (bad responses abort), save the file. All the
aborting steps precede the file write, so an abort leaves the filesystem of
this iteration untouched. -/
def dcflStep (problems : List (Int × String)) (fetch : String → ApiJson)
    (link : String) (fs : FS) : StepRes :=
  match get_problem_number link with
  | none => StepRes.abortBatch DLErr.valueErrorInt
  | some pid =>
    match pyLookup problems pid with
    | none => StepRes.breakLoop
    | some difficulty =>
      match get_api_link_from_href link with
      | Except.error e => StepRes.abortBatch e
      | Except.ok api_link =>
        match get_api_content_as_md (fetch api_link) with
        | Except.error e => StepRes.abortBatch e
        | Except.ok content =>
          let r := save_content_to_file pid difficulty content fs
          StepRes.resolved r.2 r.1

/-- Loop of download_content_from_links; the fetch oracle maps an api link to
the parsed JSON outcome of the HTTP call. An Except.error result models an
uncaught exception aborting the whole batch: the accumulated new_links dict is
lost while files already written persist. A missing problem id breaks out of
the loop, returning what was accumulated so far. -/
def dcflAux (problems : List (Int × String)) (fetch : String → ApiJson) :
    List String → Nat → Nat → FS → FS × Except DLErr (List (String × String))
  | [], _, _, fs => (fs, Except.ok [])
  | link :: rest, ix, batch, fs =>
    if batch ≤ ix then (fs, Except.ok []) else
      match dcflStep problems fetch link fs with
      | StepRes.abortBatch e => (fs, Except.error e)
      | StepRes.breakLoop => (fs, Except.ok [])
      | StepRes.resolved path fs1 =>
        let r2 := dcflAux problems fetch rest (ix + 1) batch fs1
        (r2.1,
         match r2.2 with
         | Except.error e => Except.error e
         | Except.ok nl => Except.ok ((link, path) :: nl))

/-- Model of download_solutions.download_content_from_links. -/
def download_content_from_links (problems : List (Int × String))
    (fetch : String → ApiJson) (links : List String) (batch_size : Nat) (fs : FS) :
    FS × Except DLErr (List (String × String)) :=
  dcflAux problems fetch links 0 batch_size fs

/-- Model of download_solutions.collect_all_links. -/
def collect_all_links (new_links : List (String × String))
    (links : List (String × Option String)) : List (String × Option String) :=
  new_links.foldl (fun l p => pyUpsert l p.1 (some p.2)) links

/-- Python falsiness of an optional string value: None and the empty string. -/
def isFalsyOpt (v : Option String) : Bool :=
  match v with
  | none => true
  | some s => decide (s = "")

/-- Keys of the links dict whose value is falsy, the dict comprehension of
download_solutions.main selecting the unresolved links. -/
def new_unresolved (links : List (String × Option String)) : List String :=
  (links.filter (fun p => isFalsyOpt p.2)).map Prod.fst

/-- Batch size of download_solutions.main: the batch_size flag when set (its
default 0 is falsy), otherwise the number of unresolved links. -/
def effective_batch (batch_flag n : Nat) : Nat := if batch_flag = 0 then n else batch_flag

/-- Model of download_solutions.main for one run: select the unresolved links,
process a batch, and persist the merged map only when the batch produced
updates and no exception escaped (an escaping exception kills the process
before the state is saved). -/
def download_solutions_main (problems : List (Int × String)) (fetch : String → ApiJson)
    (links : List (String × Option String)) (batch_flag : Nat) (fs : FS) :
    FS × List (String × Option String) :=
  let r := download_content_from_links problems fetch (new_unresolved links)
    (effective_batch batch_flag (new_unresolved links).length) fs
  match r.2 with
  | Except.error _ => (r.1, links)
  | Except.ok nl =>
    match nl with
    | [] => (r.1, links)
    | q :: qs => (r.1, collect_all_links (q :: qs) links)

def markerPre : List Char := "dailycodingproblem".data

def markerPost : List Char := "com/solution".data

/-- Match of the solution-domain regex at the head of the list; the dot of the
pattern dailycodingproblem.com/solution is the regex wildcard for any
character except newline. -/
def isMarkerAt (cs : List Char) : Bool :=
  leadsWith markerPre cs &&
    (match cs.drop markerPre.length with
     | [] => false
     | c :: rest => if c = '\n' then false else leadsWith markerPost rest)

/-- Occurrence of the solution-domain regex anywhere in the list. -/
def containsMarker : List Char → Bool
  | [] => false
  | c :: cs => isMarkerAt (c :: cs) || containsMarker cs

/-- Closing position for the lazy bracket regex: the smallest index of at
least 1 holding a close bracket, with no newline at or before it. -/
def findCloseAux : List Char → Nat → Option Nat
  | [], _ => none
  | c :: cs, i =>
    if c = ']' ∧ 1 ≤ i then some i
    else if c = '\n' then none
    else findCloseAux cs (i + 1)

/-- Scan of re.findall with the lazy bracket pattern, driven by fuel so that
the definition reduces; the fuel is at least the list length at every call. -/
def findallLazyF : Nat → List Char → List (List Char)
  | 0, _ => []
  | _ + 1, [] => []
  | fuel + 1, c :: cs =>
    if c = '[' then
      match findCloseAux cs 0 with
      | some k => ('[' :: cs.take (k + 1)) :: findallLazyF fuel (cs.drop (k + 1))
      | none => findallLazyF fuel cs
    else findallLazyF fuel cs

/-- Model of re.findall with the lazy bracket-dot-plus-bracket pattern. -/
def findallLazy (cs : List Char) : List (List Char) := findallLazyF cs.length cs

/-- Model of re.sub removing every square bracket character. -/
def stripSquare (cs : List Char) : List Char :=
  cs.filter (fun c => !(c = '[' || c = ']'))

/-- Model of DCP_Service.get_solution_links_from_text: bracket matches,
filtered by the solution-domain marker, deduplicated as a set, then the
bracket characters are removed. -/
def get_solution_links_from_text (message : String) : List String :=
  let all_links := findallLazy message.data
  let solution_links := all_links.filter containsMarker
  (pyDedup solution_links).map (fun l => String.mk (stripSquare l))

def headDigit : List Char → Bool
  | [] => false
  | c :: _ => c.isDigit

/-- Leftmost match of the hash-digits regex: the digit run after the first
hash sign that is followed by a digit. -/
def probScan : List Char → Option (List Char)
  | [] => none
  | c :: cs =>
    if c = '#' then
      if headDigit cs then some (digitRun cs) else probScan cs
    else probScan cs

def lastCloseAux : List Char → Nat → Option Nat → Option Nat
  | [], _, acc => acc
  | c :: cs, i, acc => lastCloseAux cs (i + 1) (if c = ']' then some i else acc)

/-- Leftmost-then-greedy match of the bracket-dot-plus-bracket regex used for
the difficulty tag: from an open bracket, greedily up to the last close
bracket on the same line, needing at least one character in between. -/
def bracketScan : List Char → Option (List Char)
  | [] => none
  | c :: cs =>
    if c = '[' then
      let seg := cs.takeWhile (fun d => !(d = '\n'))
      match lastCloseAux seg 0 none with
      | some k => if 1 ≤ k then some ('[' :: seg.take (k + 1)) else bracketScan cs
      | none => bracketScan cs
    else bracketScan cs

/-- Subject parsing shared by collect_problem_difficulty: the problem id from
the hash-digits token (required) and the difficulty from the bracket tag with
the bracket characters removed, defaulting to Easy. -/
def problem_from_subject (subject : String) : Option (Int × String) :=
  match probScan subject.data with
  | none => none
  | some ds =>
    some ((digitsToNat ds : Int),
      match bracketScan subject.data with
      | some m => String.mk (stripSquare m)
      | none => "Easy")

/-- Loop body of collect_problem_difficulty for one email entry: falsy
subjects are skipped, and the insert is first-writer-wins. -/
def collectStep (probs : List (Int × String)) (e : String × Option String) :
    List (Int × String) :=
  match e.2 with
  | none => probs
  | some subject =>
    if subject = "" then probs
    else
      match problem_from_subject subject with
      | none => probs
      | some pd => if keyMem probs pd.1 then probs else probs ++ [pd]

/-- Model of DCP_Service.collect_problem_difficulty. -/
def collect_problem_difficulty (emails : List (String × Option String))
    (problems : List (Int × String)) : List (Int × String) :=
  emails.foldl collectStep problems

structure MsgPart where
  mimeType : String
  body : String

deriving instance DecidableEq for MsgPart

structure MsgContent where
  subject : String
  parts : List MsgPart

deriving instance DecidableEq for MsgContent

inductive FetchOutcome where
  | ok (content : MsgContent)
  | invalidMessage
  | readTimeout

deriving instance DecidableEq for FetchOutcome

inductive FetchErr where
  | invalidMessage
  | tooManyTextParts
  | readTimeout

deriving instance DecidableEq for FetchErr

/-- Model of DCP_Service.get_text_message on fetched content: collect the
text/plain parts, fail on more than one, return the subject and the optional
first body. Part bodies stand for the decoded payload string the code builds. -/
def get_text_message (content : MsgContent) : Except FetchErr (String × Option String) :=
  let data_parts :=
    (content.parts.filter (fun p => decide (p.mimeType = "text/plain"))).map MsgPart.body
  if 1 < data_parts.length then Except.error FetchErr.tooManyTextParts
  else Except.ok (content.subject, data_parts.head?)

/-- Fetch-and-parse for one message id: the oracle is the mail service, whose
failures surface as the exceptions the batch loop catches. ReadTimeoutError is
referenced by the code but its declaration is not among the sources; modelled
from the spec as the transient timeout failure of the fetch. -/
def fetch_text_message (fetch : String → FetchOutcome) (message_id : String) :
    Except FetchErr (String × Option String) :=
  match fetch message_id with
  | FetchOutcome.ok content => get_text_message content
  | FetchOutcome.invalidMessage => Except.error FetchErr.invalidMessage
  | FetchOutcome.readTimeout => Except.error FetchErr.readTimeout

/-- Loop of get_subject_and_links: per-item fetch with all three error classes
caught and skipped, successes recorded into the new_emails dict and links
accumulated. -/
def gsalAux (fetch : String → FetchOutcome) (batch : Nat) :
    List String → Nat → List (String × String) → List String →
    List (String × String) × List String
  | [], _, ne, ls => (ne, ls)
  | email_id :: rest, ix, ne, ls =>
    if batch ≤ ix then (ne, ls) else
      match fetch_text_message fetch email_id with
      | Except.ok sm =>
        gsalAux fetch batch rest (ix + 1) (pyUpsert ne email_id sm.1)
          (ls ++ (match sm.2 with
                  | some m => get_solution_links_from_text m
                  | none => []))
      | Except.error _ => gsalAux fetch batch rest (ix + 1) ne ls

/-- Model of DCP_Service.get_subject_and_links. -/
def get_subject_and_links (fetch : String → FetchOutcome) (email_ids : List String)
    (batch_size : Nat) : List (String × String) × List String :=
  let r := gsalAux fetch batch_size email_ids 0 [] []
  (r.1, pyDedup r.2)

/-- While loop of download_emails.main: keep extending with nonempty pages. -/
def walkLoop : List String → List (List String) → List String
  | acc, [] => acc
  | acc, p :: rest => walkLoop (match p with | [] => acc | _ :: _ => acc ++ p) rest

/-- Pagination walk of download_emails.main: the responses of the successive
search calls are given as the list of pages, the last one carrying no
continuation token. -/
def download_emails_walk (pages : List (List String)) : List String :=
  match pages with
  | [] => []
  | first :: rest => walkLoop first rest

/-- Persisted links value: download_links.main stores a plain list of urls,
while the downloader schema is a dict from url to optional artifact path. -/
inductive LinksBlob where
  | ofList (urls : List String)
  | ofMap (m : List (String × Option String))

deriving instance DecidableEq for LinksBlob

/-- Resolution recorded for a url in the persisted links value; the list
schema carries no resolutions. -/
def resolutionOf (b : LinksBlob) (url : String) : Option String :=
  match b with
  | LinksBlob.ofList _ => none
  | LinksBlob.ofMap m =>
    match pyLookup m url with
    | some (some p) => some p
    | _ => none

def blobKeys (b : LinksBlob) : List String :=
  match b with
  | LinksBlob.ofList us => us
  | LinksBlob.ofMap m => m.map Prod.fst

/-- Links update of download_links.main: the freshly extracted set absorbs the
keys of the previous links value (set.update iterates the keys of a dict) and
is persisted as a plain list; nothing is written when no link was extracted. -/
def download_links_links_stage (extracted : List String) (prev : LinksBlob) : LinksBlob :=
  match extracted with
  | [] => prev
  | _ :: _ => LinksBlob.ofList (pyDedup (extracted ++ blobKeys prev))

/-! Concrete demonstration inputs shared by several theorems. -/

def fs0 : FS := FS.mk [] []

def demoProblems : List (Int × String) := [(42, "Hard")]

def demoFetch : String → ApiJson :=
  fun _ => ApiJson.jsonObj 42 "Merge two sorted arrays." "Use two pointers."

def demoGood : String := "https://www.dailycodingproblem.com/solution/42?token=xyz"

def demoNoNum : String := "https://www.dailycodingproblem.com/solution?token=abc"

def demoMissing : String := "https://www.dailycodingproblem.com/solution/99?token=zz"

/-! Generic lemmas about the dict and set models. -/

theorem keyMem_ex [DecidableEq α] (m : List (α × β)) (k : α) :
    keyMem m k = true ↔ ∃ p ∈ m, p.1 = k := by
  simp [keyMem]

theorem keyMem_false_iff [DecidableEq α] (m : List (α × β)) (k : α) :
    keyMem m k = false ↔ pyLookup m k = none := by
  induction m with
  | nil => simp [keyMem, pyLookup]
  | cons p rest ih =>
    by_cases hp : p.1 = k
    · simp [keyMem, pyLookup, hp]
    · simp [keyMem, pyLookup, hp] at ih ⊢
      exact ih

theorem keyMem_true_iff [DecidableEq α] (m : List (α × β)) (k : α) :
    keyMem m k = true ↔ ∃ v, pyLookup m k = some v := by
  induction m with
  | nil => simp [keyMem, pyLookup]
  | cons p rest ih =>
    by_cases hp : p.1 = k
    · simp [keyMem, pyLookup, hp]
    · simp [keyMem, pyLookup, hp] at ih ⊢
      exact ih

theorem pyLookup_upsert_self [DecidableEq α] (m : List (α × β)) (k : α) (v : β) :
    pyLookup (pyUpsert m k v) k = some v := by
  induction m with
  | nil => simp [pyUpsert, pyLookup]
  | cons p rest ih =>
    by_cases hp : p.1 = k
    · simp [pyUpsert, hp, pyLookup]
    · simp [pyUpsert, hp, pyLookup, ih]

theorem pyLookup_upsert_other [DecidableEq α] (m : List (α × β)) (k u : α) (v : β)
    (h : ¬ k = u) : pyLookup (pyUpsert m k v) u = pyLookup m u := by
  induction m with
  | nil => simp [pyUpsert, pyLookup, h]
  | cons p rest ih =>
    by_cases hp : p.1 = k
    · simp [pyUpsert, hp, pyLookup, h]
    · simp [pyUpsert, hp, pyLookup, ih]

theorem keyMem_upsert_mono [DecidableEq α] (m : List (α × β)) (k u : α) (v : β)
    (h : keyMem m u = true) : keyMem (pyUpsert m k v) u = true := by
  induction m with
  | nil => simp [keyMem] at h
  | cons p rest ih =>
    by_cases hp : p.1 = k
    · by_cases hu : p.1 = u
      · simp [pyUpsert, hp, keyMem, hp ▸ hu]
      · simp [keyMem, hu] at h
        simp [pyUpsert, hp, keyMem]
        right
        simpa [keyMem] using h
    · simp [keyMem, pyUpsert, hp] at h ⊢
      rcases h with h | h
      · exact Or.inl h
      · exact Or.inr (by simpa [keyMem] using ih (by simpa [keyMem] using h))

theorem pyLookup_append_left [DecidableEq α] (l t : List (α × β)) (k : α)
    (h : keyMem l k = true) : pyLookup (l ++ t) k = pyLookup l k := by
  induction l with
  | nil => simp [keyMem] at h
  | cons p rest ih =>
    by_cases hp : p.1 = k
    · simp [pyLookup, hp]
    · simp [keyMem, hp] at h
      simp [pyLookup, hp]
      exact ih (by simpa [keyMem] using h)

theorem pyLookup_append_right [DecidableEq α] (l t : List (α × β)) (k : α)
    (h : keyMem l k = false) : pyLookup (l ++ t) k = pyLookup t k := by
  induction l with
  | nil => simp
  | cons p rest ih =>
    by_cases hp : p.1 = k
    · simp [keyMem, hp] at h
    · simp [keyMem, hp] at h
      simp [pyLookup, hp]
      exact ih (by simpa [keyMem] using h)

theorem keyMem_append [DecidableEq α] (l t : List (α × β)) (k : α) :
    keyMem (l ++ t) k = (keyMem l k || keyMem t k) := by
  simp [keyMem]

theorem mem_pyDedupAux [DecidableEq α] (l : List α) :
    ∀ (seen : List α) (a : α), a ∈ pyDedupAux seen l ↔ a ∈ l ∧ a ∉ seen := by
  induction l with
  | nil => intro seen a; simp [pyDedupAux]
  | cons b l ih =>
    intro seen a
    by_cases hb : b ∈ seen
    · simp only [pyDedupAux, if_pos hb, ih, List.mem_cons]
      constructor
      · rintro ⟨h1, h2⟩
        exact ⟨Or.inr h1, h2⟩
      · rintro ⟨h1 | h1, h2⟩
        · exact absurd (h1 ▸ hb) h2
        · exact ⟨h1, h2⟩
    · simp only [pyDedupAux, if_neg hb, List.mem_cons, ih]
      by_cases hab : a = b
      · subst hab
        simp [hb]
      · simp [hab, List.mem_cons]

theorem mem_pyDedup [DecidableEq α] (l : List α) (a : α) :
    a ∈ pyDedup l ↔ a ∈ l := by
  simp [pyDedup, mem_pyDedupAux]

/-! C1: the pagination walk of download_emails.main. -/

theorem walkLoop_join (rest : List (List String)) :
    ∀ acc, walkLoop acc rest = acc ++ rest.flatten := by
  induction rest with
  | nil => intro acc; simp [walkLoop]
  | cons p rest ih =>
    intro acc
    cases p with
    | nil => simp [walkLoop, ih]
    | cons x xs => simp [walkLoop, ih]

/-- C1 counterexample: walking the pages [a,b], [b,c], [] yields the list
a, b, b, c, in which the identifier b occurs twice, so the walk does not
return a deduplicated union. -/
theorem c1_duplicate_across_pages :
    download_emails_walk [["a", "b"], ["b", "c"], []] = ["a", "b", "b", "c"] ∧
    ¬ (download_emails_walk [["a", "b"], ["b", "c"], []]).Nodup := by
  constructor
  · rfl
  · decide

/-- C1 amended: the pagination walk returns the concatenation of all pages in
order; every identifier seen appears, but an identifier appearing on several
pages is repeated rather than deduplicated (the dedup happens only in the
downstream merge into the items map). -/
theorem c1_walk_is_concat (pages : List (List String)) :
    download_emails_walk pages = pages.flatten := by
  cases pages with
  | nil => rfl
  | cons first rest => simp [download_emails_walk, walkLoop_join]

/-! C4: transient timeout in the batch loop of get_subject_and_links. -/

theorem gsal_lookup_none (fetch : String → FetchOutcome) (e : String)
    (h : fetch e = FetchOutcome.readTimeout) (batch : Nat) :
    ∀ (ids : List String) (ix : Nat) (ne : List (String × String)) (ls : List String),
      pyLookup ne e = none → pyLookup (gsalAux fetch batch ids ix ne ls).1 e = none := by
  intro ids
  induction ids with
  | nil => intro ix ne ls hne; simpa [gsalAux] using hne
  | cons id rest ih =>
    intro ix ne ls hne
    by_cases hb : batch ≤ ix
    · simpa [gsalAux, hb] using hne
    · cases hf : fetch_text_message fetch id with
      | ok sm =>
        have hid : ¬ id = e := by
          intro hEq
          rw [hEq] at hf
          simp [fetch_text_message, h] at hf
        simp only [gsalAux, if_neg hb, hf]
        exact ih _ _ _ (by rw [pyLookup_upsert_other _ _ _ _ hid]; exact hne)
      | error er =>
        simp only [gsalAux, if_neg hb, hf]
        exact ih _ _ _ hne

/-- C4: when the fetch of an item times out, the batch loop of
get_subject_and_links records nothing for it (its subject stays absent in the
returned subset, so it is selected again on a later invocation), the
exception does not escape the loop, and the loop continues with the remaining
items exactly as if the timed-out item had been dropped (still consuming its
batch slot). -/
theorem c4_timeout_skip (fetch : String → FetchOutcome) (e : String)
    (h : fetch e = FetchOutcome.readTimeout) :
    (∀ (ids : List String) (batch : Nat),
      pyLookup (get_subject_and_links fetch ids batch).1 e = none) ∧
    (∀ (post : List String) (ix batch : Nat) ne ls, ix < batch →
      gsalAux fetch batch (e :: post) ix ne ls = gsalAux fetch batch post (ix + 1) ne ls) := by
  constructor
  · intro ids batch
    simpa [get_subject_and_links] using gsal_lookup_none fetch e h batch ids 0 [] [] rfl
  · intro post ix batch ne ls hib
    have hb : ¬ batch ≤ ix := Nat.not_le.mpr hib
    simp [gsalAux, hb, fetch_text_message, h]

def c4Fetch : String → FetchOutcome :=
  fun id => if id = "m2" then FetchOutcome.readTimeout
            else FetchOutcome.ok (MsgContent.mk "Subject" [])

/-- Witness for C4 at a concrete fetch oracle whose item m2 times out. -/
theorem c4_timeout_skip_witness :
    pyLookup (get_subject_and_links c4Fetch ["m1", "m2", "m3"] 5).1 "m2" = none ∧
    gsalAux c4Fetch 5 ["m2", "m3"] 0 [] [] = gsalAux c4Fetch 5 ["m3"] 1 [] [] := by
  constructor
  · exact (c4_timeout_skip c4Fetch "m2" rfl).1 ["m1", "m2", "m3"] 5
  · exact (c4_timeout_skip c4Fetch "m2" rfl).2 ["m3"] 0 5 [] [] (by decide)

/-! C10: content with zero text/plain parts. -/

/-- C10: an item whose content has no text/plain part is fetched successfully
as the subject paired with no body, and the batch loop then records its
subject (marking it processed) while extracting no links from it, instead of
treating the empty content as a failure to be retried. -/
theorem c10_empty_parts (content : MsgContent)
    (h : content.parts.filter (fun p => decide (p.mimeType = "text/plain")) = []) :
    get_text_message content = Except.ok (content.subject, none) ∧
    (∀ (fetch : String → FetchOutcome) (e : String), fetch e = FetchOutcome.ok content →
      ∀ (post : List String) (ix batch : Nat) ne ls, ix < batch →
        gsalAux fetch batch (e :: post) ix ne ls
          = gsalAux fetch batch post (ix + 1) (pyUpsert ne e content.subject) ls) := by
  have h1 : get_text_message content = Except.ok (content.subject, none) := by
    simp [get_text_message, h]
  refine ⟨h1, ?_⟩
  intro fetch e hf post ix batch ne ls hib
  have hb : ¬ batch ≤ ix := Nat.not_le.mpr hib
  simp [gsalAux, hb, fetch_text_message, hf, h1]

def c10Content : MsgContent := MsgContent.mk "Hello" [MsgPart.mk "text/html" "irrelevant"]

def c10Fetch : String → FetchOutcome := fun _ => FetchOutcome.ok c10Content

/-- Witness for C10 at content consisting of a single html part. -/
theorem c10_empty_parts_witness :
    get_text_message c10Content = Except.ok ("Hello", none) ∧
    gsalAux c10Fetch 4 ["m1", "m2"] 0 [] []
      = gsalAux c10Fetch 4 ["m2"] 1 (pyUpsert [] "m1" "Hello") [] := by
  constructor
  · exact (c10_empty_parts c10Content rfl).1
  · exact (c10_empty_parts c10Content rfl).2 c10Fetch "m1" rfl ["m2"] 0 4 [] [] (by decide)

/-! C6: first-writer-wins in collect_problem_difficulty. -/

theorem collectStep_cases (probs : List (Int × String)) (e : String × Option String) :
    collectStep probs e = probs ∨
    ∃ s pd, e.2 = some s ∧ ¬ s = "" ∧ problem_from_subject s = some pd ∧
      keyMem probs pd.1 = false ∧ collectStep probs e = probs ++ [pd] := by
  cases he : e.2 with
  | none => left; simp [collectStep, he]
  | some s =>
    by_cases hs : s = ""
    · left; simp [collectStep, he, hs]
    · cases hp : problem_from_subject s with
      | none => left; simp [collectStep, he, hs, hp]
      | some pd =>
        rcases Bool.eq_false_or_eq_true (keyMem probs pd.1) with hk | hk
        · left
          simp [collectStep, he, hs, hp, hk]
        · right
          exact ⟨s, pd, rfl, hs, hp, hk, by simp [collectStep, he, hs, hp, hk]⟩

theorem collectStep_keyMem_mono (probs : List (Int × String)) (e : String × Option String)
    (pid : Int) (h : keyMem probs pid = true) : keyMem (collectStep probs e) pid = true := by
  rcases collectStep_cases probs e with hc | ⟨s, pd, _, _, _, _, hc⟩
  · rw [hc]; exact h
  · rw [hc, keyMem_append]
    simp [h]

theorem collect_keyMem_mono (emails : List (String × Option String)) :
    ∀ (probs : List (Int × String)) (pid : Int), keyMem probs pid = true →
      keyMem (collect_problem_difficulty emails probs) pid = true := by
  induction emails with
  | nil => intro probs pid h; simpa [collect_problem_difficulty] using h
  | cons e rest ih =>
    intro probs pid h
    have hcol : collect_problem_difficulty (e :: rest) probs
        = collect_problem_difficulty rest (collectStep probs e) := by
      simp [collect_problem_difficulty]
    rw [hcol]
    exact ih _ pid (collectStep_keyMem_mono probs e pid h)

theorem collect_lookup_preserved (emails : List (String × Option String)) :
    ∀ (probs : List (Int × String)) (pid : Int), keyMem probs pid = true →
      pyLookup (collect_problem_difficulty emails probs) pid = pyLookup probs pid := by
  induction emails with
  | nil => intro probs pid h; simp [collect_problem_difficulty]
  | cons e rest ih =>
    intro probs pid h
    have hcol : collect_problem_difficulty (e :: rest) probs
        = collect_problem_difficulty rest (collectStep probs e) := by
      simp [collect_problem_difficulty]
    have hl : pyLookup (collectStep probs e) pid = pyLookup probs pid := by
      rcases collectStep_cases probs e with hc | ⟨s, pd, _, _, _, hk, hc⟩
      · rw [hc]
      · rw [hc]
        exact pyLookup_append_left _ _ _ h
    rw [hcol, ih _ pid (collectStep_keyMem_mono probs e pid h), hl]

theorem collect_new_key_provenance (emails : List (String × Option String)) :
    ∀ (probs : List (Int × String)) (pid : Int) (d : String),
      keyMem probs pid = false →
      pyLookup (collect_problem_difficulty emails probs) pid = some d →
      ∃ e ∈ emails, ∃ s, e.2 = some s ∧ ¬ s = "" ∧
        problem_from_subject s = some (pid, d) := by
  induction emails with
  | nil =>
    intro probs pid d hk hl
    rw [show collect_problem_difficulty [] probs = probs from rfl,
      (keyMem_false_iff _ _).mp hk] at hl
    cases hl
  | cons e rest ih =>
    intro probs pid d hk hl
    have hcol : collect_problem_difficulty (e :: rest) probs
        = collect_problem_difficulty rest (collectStep probs e) := by
      simp [collect_problem_difficulty]
    rw [hcol] at hl
    rcases collectStep_cases probs e with hc | ⟨s, pd, hes, hss, hps, hkpd, hc⟩
    · rw [hc] at hl
      rcases ih probs pid d hk hl with ⟨e2, he2, hrest⟩
      exact ⟨e2, List.mem_cons_of_mem _ he2, hrest⟩
    · by_cases hpid : pd.1 = pid
      · have hkey : keyMem (probs ++ [pd]) pid = true := by
          rw [keyMem_append]
          simp [keyMem, hpid]
        have hlv : pyLookup (probs ++ [pd]) pid = some pd.2 := by
          rw [pyLookup_append_right _ _ _ hk]
          simp [pyLookup, hpid]
        rw [hc, collect_lookup_preserved rest _ _ hkey, hlv] at hl
        have hd : pd.2 = d := by injection hl
        have hpd : pd = (pid, d) := by
          cases pd
          simp only at hpid hd
          rw [hpid, hd]
        exact ⟨e, List.mem_cons_self _ _, s, hes, hss, by rw [hps, hpd]⟩
      · have hk2 : keyMem (probs ++ [pd]) pid = false := by
          rw [keyMem_append, hk]
          simp [keyMem, hpid]
        rw [hc] at hl
        rcases ih _ pid d hk2 hl with ⟨e2, he2, hrest⟩
        exact ⟨e2, List.mem_cons_of_mem _ he2, hrest⟩

theorem collect_adds_parsed (emails : List (String × Option String)) :
    ∀ (probs : List (Int × String)) (pid : Int),
      (∃ e ∈ emails, ∃ s d, e.2 = some s ∧ ¬ s = "" ∧
        problem_from_subject s = some (pid, d)) →
      keyMem (collect_problem_difficulty emails probs) pid = true := by
  induction emails with
  | nil => intro probs pid h; simp at h
  | cons e rest ih =>
    intro probs pid h
    have hcol : collect_problem_difficulty (e :: rest) probs
        = collect_problem_difficulty rest (collectStep probs e) := by
      simp [collect_problem_difficulty]
    rw [hcol]
    rcases h with ⟨e2, he2, s, d, hes, hss, hps⟩
    rcases List.mem_cons.mp he2 with rfl | he2
    · refine collect_keyMem_mono rest _ pid ?_
      rcases Bool.eq_false_or_eq_true (keyMem probs pid) with hk | hk
      · have hstep : collectStep probs e2 = probs := by
          simp [collectStep, hes, hss, hps, hk]
        rw [hstep]
        exact hk
      · have hstep : collectStep probs e2 = probs ++ [(pid, d)] := by
          simp [collectStep, hes, hss, hps, hk]
        rw [hstep, keyMem_append, hk]
        simp [keyMem]
    · exact ih (collectStep probs e) pid ⟨e2, he2, s, d, hes, hss, hps⟩

/-- C6: difficulty collection is first-writer-wins: a problem id already
present keeps its stored difficulty unchanged regardless of what later
subjects carry; an id not yet present becomes present as soon as some subject
parses to it, and a newly added value always comes from parsing one of the
processed subjects. -/
theorem c6_first_writer_wins (emails : List (String × Option String))
    (problems : List (Int × String)) (pid : Int) :
    (keyMem problems pid = true →
      pyLookup (collect_problem_difficulty emails problems) pid = pyLookup problems pid) ∧
    (∀ e ∈ emails, ∀ (s d : String), e.2 = some s → ¬ s = "" →
      problem_from_subject s = some (pid, d) →
      keyMem (collect_problem_difficulty emails problems) pid = true) ∧
    (∀ d, keyMem problems pid = false →
      pyLookup (collect_problem_difficulty emails problems) pid = some d →
      ∃ e ∈ emails, ∃ s, e.2 = some s ∧ ¬ s = "" ∧
        problem_from_subject s = some (pid, d)) := by
  refine ⟨fun h => collect_lookup_preserved emails problems pid h, ?_, ?_⟩
  · intro e he s d hes hss hps
    exact collect_adds_parsed emails problems pid ⟨e, he, s, d, hes, hss, hps⟩
  · intro d hk hl
    exact collect_new_key_provenance emails problems pid d hk hl

/-- Witness for C6: an id stored as Medium stays Medium although a later
subject tags it Hard, and a fresh id is added from its subject. -/
theorem c6_first_writer_wins_witness :
    pyLookup (collect_problem_difficulty
        [("e1", some "Daily Coding Problem: Problem #761 [Hard]")]
        [((761 : Int), "Medium")]) 761 = some "Medium" ∧
    keyMem (collect_problem_difficulty [("e2", some "Problem #9 [Hard]")] []) 9 = true := by
  constructor
  · exact Eq.trans
      ((c6_first_writer_wins [("e1", some "Daily Coding Problem: Problem #761 [Hard]")]
        [((761 : Int), "Medium")] 761).1 (by decide)) rfl
  · exact (c6_first_writer_wins [("e2", some "Problem #9 [Hard]")] [] 9).2.1
      ("e2", some "Problem #9 [Hard]") (by simp) "Problem #9 [Hard]" "Hard" rfl
      (by decide) (by decide)

/-! C2: growth of the persisted links map across runs. -/

theorem dcflAux_nil (problems : List (Int × String)) (fetch : String → ApiJson)
    (ix batch : Nat) (fs : FS) :
    dcflAux problems fetch [] ix batch fs = (fs, Except.ok []) := rfl

theorem dcflAux_cons (problems : List (Int × String)) (fetch : String → ApiJson)
    (link : String) (rest : List String) (ix batch : Nat) (fs : FS) :
    dcflAux problems fetch (link :: rest) ix batch fs
      = if batch ≤ ix then (fs, Except.ok []) else
          match dcflStep problems fetch link fs with
          | StepRes.abortBatch e => (fs, Except.error e)
          | StepRes.breakLoop => (fs, Except.ok [])
          | StepRes.resolved path fs1 =>
            let r2 := dcflAux problems fetch rest (ix + 1) batch fs1
            (r2.1,
             match r2.2 with
             | Except.error e => Except.error e
             | Except.ok nl => Except.ok ((link, path) :: nl)) := rfl

theorem dcflAux_keys_sub (problems : List (Int × String)) (fetch : String → ApiJson) :
    ∀ (links : List String) (ix batch : Nat) (fs : FS) (nl : List (String × String)),
      (dcflAux problems fetch links ix batch fs).2 = Except.ok nl →
      ∀ p ∈ nl, p.1 ∈ links := by
  intro links
  induction links with
  | nil =>
    intro ix batch fs nl h p hp
    rw [dcflAux_nil] at h
    simp at h
    subst h
    cases hp
  | cons link rest ih =>
    intro ix batch fs nl h p hp
    by_cases hb : batch ≤ ix
    · rw [dcflAux_cons] at h
      simp [hb] at h
      subst h
      cases hp
    · rw [dcflAux_cons, if_neg hb] at h
      cases hs : dcflStep problems fetch link fs with
      | abortBatch e => rw [hs] at h; simp at h
      | breakLoop =>
        rw [hs] at h
        simp at h
        subst h
        cases hp
      | resolved path fs1 =>
        rw [hs] at h
        simp only at h
        cases hrec : (dcflAux problems fetch rest (ix + 1) batch fs1).2 with
        | error e => rw [hrec] at h; simp at h
        | ok nl2 =>
          rw [hrec] at h
          simp at h
          subst h
          rcases List.mem_cons.mp hp with rfl | hp2
          · exact List.mem_cons_self _ _
          · exact List.mem_cons_of_mem _ (ih (ix + 1) batch _ nl2 hrec p hp2)

theorem collect_all_links_lookup_not_key (nl : List (String × String)) :
    ∀ (links : List (String × Option String)) (u : String), (∀ p ∈ nl, ¬ p.1 = u) →
      pyLookup (collect_all_links nl links) u = pyLookup links u := by
  induction nl with
  | nil => intro links u h; simp [collect_all_links]
  | cons q nl ih =>
    intro links u h
    have hcol : collect_all_links (q :: nl) links
        = collect_all_links nl (pyUpsert links q.1 (some q.2)) := by
      simp [collect_all_links]
    rw [hcol, ih _ u (fun p hp => h p (List.mem_cons_of_mem _ hp)),
      pyLookup_upsert_other _ _ _ _ (h q (List.mem_cons_self _ _))]

theorem collect_all_links_keyMem_mono (nl : List (String × String)) :
    ∀ (links : List (String × Option String)) (u : String), keyMem links u = true →
      keyMem (collect_all_links nl links) u = true := by
  induction nl with
  | nil => intro links u h; simpa [collect_all_links] using h
  | cons q nl ih =>
    intro links u h
    have hcol : collect_all_links (q :: nl) links
        = collect_all_links nl (pyUpsert links q.1 (some q.2)) := by
      simp [collect_all_links]
    rw [hcol]
    exact ih _ u (keyMem_upsert_mono _ _ _ _ h)

theorem pyLookup_of_mem_nodup [DecidableEq α] (l : List (α × β)) (k : α) (v : β)
    (hnd : (l.map Prod.fst).Nodup) (hm : (k, v) ∈ l) : pyLookup l k = some v := by
  induction l with
  | nil => cases hm
  | cons p rest ih =>
    rw [List.map_cons, List.nodup_cons] at hnd
    rcases List.mem_cons.mp hm with rfl | hm2
    · simp [pyLookup]
    · have hne : ¬ p.1 = k := by
        intro hEq
        exact hnd.1 (hEq ▸ List.mem_map.mpr ⟨(k, v), hm2, rfl⟩)
      simp [pyLookup, hne, ih hnd.2 hm2]

theorem download_solutions_main_snd (problems : List (Int × String))
    (fetch : String → ApiJson) (links : List (String × Option String))
    (batch_flag : Nat) (fs : FS) :
    (download_solutions_main problems fetch links batch_flag fs).2 = links ∨
    ∃ nl : List (String × String),
      (download_solutions_main problems fetch links batch_flag fs).2
        = collect_all_links nl links ∧
      ∀ q ∈ nl, q.1 ∈ new_unresolved links := by
  cases hr : (download_content_from_links problems fetch (new_unresolved links)
      (effective_batch batch_flag (new_unresolved links).length) fs).2 with
  | error e => left; simp [download_solutions_main, hr]
  | ok nl =>
    cases nl with
    | nil => left; simp [download_solutions_main, hr]
    | cons q qs =>
      right
      exact ⟨q :: qs, by simp [download_solutions_main, hr],
        dcflAux_keys_sub problems fetch _ 0 _ fs _ hr⟩

/-- C2 amended: the links map only grows in keys at every stage (both the
Downloader merge and the link-extraction merge keep every previously present
url key), and the Downloader run leaves a present nonempty resolution
unchanged, resolving links only from absent to present. The link-extraction
stage of download_links.main, however, persists the links as a plain key
list, so resolutions do not survive that stage (see the counterexample). -/
theorem c2_links_monotone (problems : List (Int × String)) (fetch : String → ApiJson)
    (links : List (String × Option String)) (batch_flag : Nat) (fs : FS)
    (hnd : (links.map Prod.fst).Nodup) :
    (∀ url, keyMem links url = true →
      keyMem (download_solutions_main problems fetch links batch_flag fs).2 url = true) ∧
    (∀ (url p : String), ¬ p = "" → pyLookup links url = some (some p) →
      pyLookup (download_solutions_main problems fetch links batch_flag fs).2 url
        = some (some p)) ∧
    (∀ (extracted : List String) (prev : LinksBlob) (url : String),
      url ∈ blobKeys prev → url ∈ blobKeys (download_links_links_stage extracted prev)) := by
  refine ⟨?_, ?_, ?_⟩
  · intro url hk
    rcases download_solutions_main_snd problems fetch links batch_flag fs with h | ⟨nl, h, _⟩
    · rw [h]; exact hk
    · rw [h]
      exact collect_all_links_keyMem_mono nl links url hk
  · intro url p hp hl
    rcases download_solutions_main_snd problems fetch links batch_flag fs with h | ⟨nl, h, hsub⟩
    · rw [h]; exact hl
    · rw [h]
      rw [collect_all_links_lookup_not_key nl links url ?_]
      · exact hl
      · intro q hq hqu
        have hmem : q.1 ∈ new_unresolved links := hsub q hq
        rw [hqu] at hmem
        rcases List.mem_map.mp hmem with ⟨pr, hprf, hpr1⟩
        rcases List.mem_filter.mp hprf with ⟨hprl, hprfal⟩
        have hlv : pyLookup links pr.1 = some pr.2 := by
          have : (pr.1, pr.2) ∈ links := by simpa using hprl
          exact pyLookup_of_mem_nodup links pr.1 pr.2 hnd this
        rw [hpr1, hl] at hlv
        have : pr.2 = some p := by injection hlv.symm
        rw [this] at hprfal
        simp [isFalsyOpt, hp] at hprfal
  · intro extracted prev url hmem
    cases extracted with
    | nil => exact hmem
    | cons x xs =>
      simp only [download_links_links_stage, blobKeys]
      rw [mem_pyDedup]
      exact List.mem_append_right _ hmem

def c2Links : List (String × Option String) :=
  [("u", some "solutions/Easy/problem_001.md"), ("w", none)]

/-- Witness for C2 at a concrete two-entry links map with one resolved and
one unresolved link. -/
theorem c2_links_monotone_witness :
    keyMem (download_solutions_main [] demoFetch c2Links 0 fs0).2 "u" = true ∧
    pyLookup (download_solutions_main [] demoFetch c2Links 0 fs0).2 "u"
      = some (some "solutions/Easy/problem_001.md") ∧
    "u" ∈ blobKeys (download_links_links_stage ["w2"] (LinksBlob.ofMap c2Links)) := by
  refine ⟨?_, ?_, ?_⟩
  · exact (c2_links_monotone [] demoFetch c2Links 0 fs0 (by decide)).1 "u" (by decide)
  · exact (c2_links_monotone [] demoFetch c2Links 0 fs0 (by decide)).2.1 "u"
      "solutions/Easy/problem_001.md" (by decide) rfl
  · exact (c2_links_monotone [] demoFetch c2Links 0 fs0 (by decide)).2.2 ["w2"]
      (LinksBlob.ofMap c2Links) "u" (by decide)

/-- C2 counterexample: running the link-extraction stage on a links map whose
url u carries a resolution drops that resolution, because the stage persists
only the key set; the original claim that a present resolution survives every
pipeline run is therefore false. -/
theorem c2_resolution_dropped :
    resolutionOf (LinksBlob.ofMap [("u", some "solutions/Easy/problem_001.md")]) "u"
      = some "solutions/Easy/problem_001.md" ∧
    resolutionOf (download_links_links_stage ["w"]
        (LinksBlob.ofMap [("u", some "solutions/Easy/problem_001.md")])) "u" = none := by
  exact ⟨rfl, rfl⟩

/-! C8: document format and artifact path of the Downloader. -/

/-- C8: a link whose problem id parses, is known with its difficulty, carries
a token, and whose content fetch returns the structured response, is resolved
by the Downloader to the formatted markdown document written at
solutions slash difficulty slash problem underscore zero-padded id dot md,
with the difficulty directory created when absent and the path recorded as
the resolution of the link. -/
theorem c8_document_and_path (link : String) (problems : List (Int × String))
    (fetch : String → ApiJson) (fs : FS) (pid : Int)
    (difficulty prompt sol api_link : String)
    (h1 : get_problem_number link = some pid)
    (h2 : pyLookup problems pid = some difficulty)
    (h3 : get_api_link_from_href link = Except.ok api_link)
    (h4 : fetch api_link = ApiJson.jsonObj pid prompt sol) :
    (download_content_from_links problems fetch [link] 1 fs).2
      = Except.ok [(link,
          "solutions/" ++ difficulty ++ "/problem_" ++ zeroPad3 pid ++ ".md")] ∧
    ("solutions/" ++ difficulty)
      ∈ (download_content_from_links problems fetch [link] 1 fs).1.dirs ∧
    pyLookup (download_content_from_links problems fetch [link] 1 fs).1.files
        ("solutions/" ++ difficulty ++ "/problem_" ++ zeroPad3 pid ++ ".md")
      = some ("## Problem #" ++ toString pid ++ "\n" ++ prompt ++ "\n## Solution\n" ++ sol) := by
  have hstep : dcflStep problems fetch link fs
      = StepRes.resolved
          (save_content_to_file pid difficulty
            ("## Problem #" ++ toString pid ++ "\n" ++ prompt ++ "\n## Solution\n" ++ sol) fs).2
          (save_content_to_file pid difficulty
            ("## Problem #" ++ toString pid ++ "\n" ++ prompt ++ "\n## Solution\n" ++ sol) fs).1 := by
    simp [dcflStep, h1, h2, h3, h4, get_api_content_as_md]
  have hred : download_content_from_links problems fetch [link] 1 fs
      = ((save_content_to_file pid difficulty
            ("## Problem #" ++ toString pid ++ "\n" ++ prompt ++ "\n## Solution\n" ++ sol) fs).1,
         Except.ok [(link, (save_content_to_file pid difficulty
            ("## Problem #" ++ toString pid ++ "\n" ++ prompt ++ "\n## Solution\n" ++ sol) fs).2)]) := by
    simp [download_content_from_links, dcflAux, hstep]
  rw [hred]
  by_cases hd : ("solutions/" ++ difficulty) ∈ fs.dirs
  · refine ⟨by simp [save_content_to_file, hd], ?_, ?_⟩
    · simp [save_content_to_file, hd]
    · simp [save_content_to_file, hd, pyLookup_upsert_self]
  · refine ⟨by simp [save_content_to_file, hd], ?_, ?_⟩
    · simp [save_content_to_file, hd]
    · simp [save_content_to_file, hd, pyLookup_upsert_self]

/-- Witness for C8: the id 42, difficulty Hard link resolves to
solutions/Hard/problem_042.md containing the formatted document. -/
theorem c8_document_and_path_witness :
    (download_content_from_links demoProblems demoFetch [demoGood] 1 fs0).2
      = Except.ok [(demoGood, "solutions/Hard/problem_042.md")] ∧
    "solutions/Hard" ∈ (download_content_from_links demoProblems demoFetch [demoGood] 1 fs0).1.dirs ∧
    pyLookup (download_content_from_links demoProblems demoFetch [demoGood] 1 fs0).1.files
        "solutions/Hard/problem_042.md"
      = some "## Problem #42\nMerge two sorted arrays.\n## Solution\nUse two pointers." := by
  exact c8_document_and_path demoGood demoProblems demoFetch fs0 42 "Hard"
    "Merge two sorted arrays." "Use two pointers."
    "https://www.dailycodingproblem.com/api/solution?token=xyz" rfl rfl rfl rfl

/-! C9: a link without a numeric trailing segment aborts the whole batch. -/

/-- C9: the link whose trailing path segment is the word solution does not
parse as an int, and because the parse precedes any per-link error handling in
the Downloader loop, the whole two-link batch aborts with the uncaught
ValueError: no file is written and no link of the batch is resolved, although
the second link alone would have resolved. -/
theorem c9_nonnumeric_segment_aborts :
    get_problem_number demoNoNum = none ∧
    download_content_from_links demoProblems demoFetch [demoNoNum, demoGood] 2 fs0
      = (fs0, Except.error DLErr.valueErrorInt) ∧
    (download_content_from_links demoProblems demoFetch [demoGood] 1 fs0).2
      = Except.ok [(demoGood, "solutions/Hard/problem_042.md")] := by
  exact ⟨rfl, rfl, rfl⟩

/-! C3: a missing problem id aborts the batch instead of skipping the link. -/

/-- C3: with the id-99 link (unknown to the problems map) first in the batch,
the Downloader breaks out of the loop and returns no update, so the id-42
link of the same batch is not processed; with the order reversed the id-42
link is resolved and the loop then stops at the miss, showing the break
discards the remainder of the batch rather than skipping only the offending
link. -/
theorem c3_missing_problem_aborts_batch :
    download_content_from_links demoProblems demoFetch [demoMissing, demoGood] 2 fs0
      = (fs0, Except.ok []) ∧
    (download_content_from_links demoProblems demoFetch [demoGood, demoMissing] 2 fs0).2
      = Except.ok [(demoGood, "solutions/Hard/problem_042.md")] := by
  exact ⟨rfl, rfl⟩

/-! C5: subject parsing. -/

theorem probScan_none (cs : List Char)
    (h : ∀ (x : List Char) (d : Char) (y : List Char),
      cs = x ++ '#' :: d :: y → d.isDigit = false) :
    probScan cs = none := by
  induction cs with
  | nil => rfl
  | cons c cs ih =>
    have ih2 : probScan cs = none :=
      ih fun x d y hxy => h (c :: x) d y (by rw [hxy]; rfl)
    by_cases hc : c = '#'
    · subst hc
      cases cs with
      | nil => simp [probScan, headDigit]
      | cons d cs2 =>
        have hd : d.isDigit = false := h [] d cs2 rfl
        simp only [probScan, headDigit, hd] at ih2 ⊢
        exact ih2
    · simp [probScan, hc, ih2]

theorem probScan_append (p r : List Char) (h : ∀ c ∈ p, ¬ c = '#') :
    probScan (p ++ r) = probScan r := by
  induction p with
  | nil => rfl
  | cons c p ih =>
    have hc : ¬ c = '#' := h c (List.mem_cons_self _ _)
    simp only [List.cons_append, probScan, if_neg hc]
    exact ih fun d hd => h d (List.mem_cons_of_mem _ hd)

theorem digitRun_append (ds r : List Char) (h : ∀ c ∈ ds, c.isDigit = true) :
    digitRun (ds ++ r) = ds ++ digitRun r := by
  induction ds with
  | nil => rfl
  | cons c ds ih =>
    have hc : c.isDigit = true := h c (List.mem_cons_self _ _)
    simp only [List.cons_append, digitRun, hc, if_true, List.append_eq]
    rw [ih fun d hd => h d (List.mem_cons_of_mem _ hd)]

theorem bracketScan_append (p r : List Char) (h : ∀ c ∈ p, ¬ c = '[') :
    bracketScan (p ++ r) = bracketScan r := by
  induction p with
  | nil => rfl
  | cons c p ih =>
    have hc : ¬ c = '[' := h c (List.mem_cons_self _ _)
    simp only [List.cons_append, bracketScan, if_neg hc]
    exact ih fun d hd => h d (List.mem_cons_of_mem _ hd)

theorem bracketScan_none (cs : List Char) (h : ∀ c ∈ cs, ¬ c = '[') :
    bracketScan cs = none := by
  induction cs with
  | nil => rfl
  | cons c cs ih =>
    have hc : ¬ c = '[' := h c (List.mem_cons_self _ _)
    simp only [bracketScan, if_neg hc]
    exact ih fun d hd => h d (List.mem_cons_of_mem _ hd)

theorem lastCloseAux_snoc (tag : List Char) :
    ∀ (i : Nat) (acc : Option Nat), (∀ c ∈ tag, ¬ c = ']') →
      lastCloseAux (tag ++ [']']) i acc = some (i + tag.length) := by
  induction tag with
  | nil => intro i acc h; simp [lastCloseAux]
  | cons c tag ih =>
    intro i acc h
    have hc : ¬ c = ']' := h c (List.mem_cons_self _ _)
    have hrec := ih (i + 1) acc fun d hd => h d (List.mem_cons_of_mem _ hd)
    have harith : i + 1 + tag.length = i + (tag.length + 1) := by omega
    simp only [List.cons_append, lastCloseAux, if_neg hc, List.append_eq, hrec,
      List.length_cons, harith]

theorem takeWhile_all (p : α → Bool) (l : List α) (h : ∀ c ∈ l, p c = true) :
    l.takeWhile p = l := by
  induction l with
  | nil => rfl
  | cons c l ih =>
    have hc := h c (List.mem_cons_self _ _)
    simp [List.takeWhile_cons, hc, ih fun d hd => h d (List.mem_cons_of_mem _ hd)]

theorem take_len_plus (u : List α) (r : List α) (n : Nat) :
    (u ++ r).take (u.length + n) = u ++ r.take n := by
  induction u with
  | nil => simp
  | cons c u ih =>
    have harith : (c :: u).length + n = (u.length + n) + 1 := by
      rw [List.length_cons]
      omega
    rw [harith, List.cons_append, List.take_succ_cons, ih, List.cons_append]

theorem stripSquare_append (u v : List Char) :
    stripSquare (u ++ v) = stripSquare u ++ stripSquare v := by
  simp [stripSquare, List.filter_append]

theorem stripSquare_of_clean (u : List Char)
    (h : ∀ c ∈ u, ¬ c = '[' ∧ ¬ c = ']') : stripSquare u = u := by
  induction u with
  | nil => rfl
  | cons c u ih =>
    have hc := h c (List.mem_cons_self _ _)
    have hrest : ∀ d ∈ u, ¬ d = '[' ∧ ¬ d = ']' :=
      fun d hd => h d (List.mem_cons_of_mem _ hd)
    have ih2 := ih hrest
    simp only [stripSquare, List.filter_cons] at ih2 ⊢
    rw [if_pos (by simp [hc.1, hc.2]), ih2]

theorem isDigit_not_open (c : Char) (h : c.isDigit = true) : ¬ c = '[' := by
  intro he
  rw [he] at h
  exact absurd h (by decide)

theorem noHash_no_token (cs : List Char) (hn : '#' ∉ cs) :
    ∀ (x : List Char) (d : Char) (y : List Char),
      cs = x ++ '#' :: d :: y → d.isDigit = false := by
  intro x d y he
  exfalso
  apply hn
  rw [he]
  simp

def subjPrefix : List Char := "Daily Coding Problem: Problem #".data

theorem c5_probScan_digits (ds tail : List Char) (hne : ¬ ds = [])
    (hall : ∀ c ∈ ds, c.isDigit = true) (htail : digitRun tail = []) :
    probScan (subjPrefix ++ ds ++ tail) = some ds := by
  have hsplit : subjPrefix = "Daily Coding Problem: Problem ".data ++ ['#'] := by decide
  have hpre : ∀ c ∈ "Daily Coding Problem: Problem ".data, ¬ c = '#' := by decide
  have hEq : subjPrefix ++ ds ++ tail
      = "Daily Coding Problem: Problem ".data ++ ('#' :: (ds ++ tail)) := by
    rw [hsplit]
    simp [List.append_assoc]
  rw [hEq, probScan_append _ _ hpre]
  cases ds with
  | nil => exact absurd rfl hne
  | cons d0 ds0 =>
    have hd0 : d0.isDigit = true := hall d0 (List.mem_cons_self _ _)
    simp only [probScan, if_pos rfl, List.cons_append, headDigit, hd0, if_true]
    rw [show (d0 :: (ds0 ++ tail)) = (d0 :: ds0) ++ tail from rfl,
      digitRun_append _ _ hall, htail, List.append_nil]

/-- C5 amended: subject parsing requires a hash-digits token (the first one
gives the problem id as the decimal value of its digit run; with no such
token no problem entry is produced). The difficulty is the content of the
greedy bracket match, all bracket characters removed: for a subject with a
single nonempty bracket tag this is exactly the tag content, and with no
bracket segment it defaults to Easy; the counterexample shows a two-tag
subject merges both tags, which the original claim excluded. -/
theorem c5_subject_parsing :
    (∀ s : String,
      (∀ (x : List Char) (d : Char) (y : List Char),
        s.data = x ++ '#' :: d :: y → d.isDigit = false) →
      problem_from_subject s = none) ∧
    (∀ ds tag : List Char, ¬ ds = [] → (∀ c ∈ ds, c.isDigit = true) →
      ¬ tag = [] → (∀ c ∈ tag, ¬ c = '[' ∧ ¬ c = ']' ∧ ¬ c = '\n') →
      problem_from_subject
          (String.mk (subjPrefix ++ ds ++ (' ' :: '[' :: (tag ++ [']']))))
        = some ((digitsToNat ds : Int), String.mk tag)) ∧
    (∀ ds : List Char, ¬ ds = [] → (∀ c ∈ ds, c.isDigit = true) →
      problem_from_subject (String.mk (subjPrefix ++ ds))
        = some ((digitsToNat ds : Int), "Easy")) := by
  refine ⟨?_, ?_, ?_⟩
  · intro s h
    simp only [problem_from_subject, probScan_none s.data h]
  · intro ds tag hne hall htagne htag
    have hsp : (' ' : Char).isDigit = false := by decide
    have htail : digitRun (' ' :: '[' :: (tag ++ [']'])) = [] := by
      simp [digitRun, hsp]
    have hprob : probScan (subjPrefix ++ ds ++ (' ' :: '[' :: (tag ++ [']'])))
        = some ds := c5_probScan_digits ds _ hne hall htail
    have hqno : ∀ c ∈ subjPrefix ++ ds ++ [' '], ¬ c = '[' := by
      intro c hc
      rcases List.mem_append.mp hc with hc | hc
      · rcases List.mem_append.mp hc with hc | hc
        · exact (by decide : ∀ c ∈ subjPrefix, ¬ c = '[') c hc
        · exact isDigit_not_open c (hall c hc)
      · rcases List.mem_singleton.mp hc with rfl
        decide
    have hEq : subjPrefix ++ ds ++ (' ' :: '[' :: (tag ++ [']']))
        = (subjPrefix ++ ds ++ [' ']) ++ ('[' :: (tag ++ [']'])) := by
      simp [List.append_assoc]
    have hseg : (tag ++ [']']).takeWhile (fun d => !(d = '\n')) = tag ++ [']'] := by
      apply takeWhile_all
      intro c hc
      rcases List.mem_append.mp hc with hc | hc
      · simp [(htag c hc).2.2]
      · rcases List.mem_singleton.mp hc with rfl
        decide
    have hclose : lastCloseAux (tag ++ [']']) 0 none = some tag.length := by
      have := lastCloseAux_snoc tag 0 none fun c hc => (htag c hc).2.1
      simpa using this
    have hk1 : 1 ≤ tag.length := by
      cases tag with
      | nil => exact absurd rfl htagne
      | cons a b => simp [List.length_cons]
    have htake : (tag ++ [']']).take (tag.length + 1) = tag ++ [']'] := by
      rw [take_len_plus]
      rfl
    have hbr : bracketScan (subjPrefix ++ ds ++ (' ' :: '[' :: (tag ++ [']'])))
        = some ('[' :: (tag ++ [']'])) := by
      rw [hEq, bracketScan_append _ _ hqno]
      simp only [bracketScan, if_pos rfl, hseg, hclose, if_pos hk1, htake]
      simp
    have hstrip : stripSquare ('[' :: (tag ++ [']'])) = tag := by
      rw [show ('[' :: (tag ++ [']'])) = ['['] ++ (tag ++ [']']) from rfl,
        stripSquare_append, stripSquare_append,
        stripSquare_of_clean tag fun c hc => ⟨(htag c hc).1, (htag c hc).2.1⟩,
        show stripSquare ['['] = [] from rfl, show stripSquare [']'] = [] from rfl]
      simp
    simp only [problem_from_subject, hprob, hbr, hstrip]
  · intro ds hne hall
    have htail : digitRun ([] : List Char) = [] := rfl
    have hprob : probScan (subjPrefix ++ ds ++ []) = some ds :=
      c5_probScan_digits ds [] hne hall htail
    rw [List.append_nil] at hprob
    have hno : ∀ c ∈ subjPrefix ++ ds, ¬ c = '[' := by
      intro c hc
      rcases List.mem_append.mp hc with hc | hc
      · exact (by decide : ∀ c ∈ subjPrefix, ¬ c = '[') c hc
      · exact isDigit_not_open c (hall c hc)
    simp only [problem_from_subject, hprob, bracketScan_none _ hno]

/-- C5 counterexample: a subject carrying the two tags Easy and Hard parses
to the difficulty string produced by the greedy bracket match with every
bracket character removed, which is the content of neither tag; the claim
that the difficulty equals the content of a bracketed tag is therefore false. -/
theorem c5_two_tags_merge :
    problem_from_subject "Daily Coding Problem: Problem #7 [Easy] see [Hard]"
      = some (7, "Easy see Hard") ∧
    ¬ ("Easy see Hard" : String) = "Easy" ∧ ¬ ("Easy see Hard" : String) = "Hard" := by
  refine ⟨by decide, by decide, by decide⟩

/-- Witness for C5 covering the single-tag, no-tag and no-token statements of
the amended theorem at the concrete subjects of the claim. -/
theorem c5_subject_parsing_witness :
    problem_from_subject "Daily Coding Problem: Problem #761 [Medium]"
      = some (761, "Medium") ∧
    problem_from_subject "Daily Coding Problem: Problem #5" = some (5, "Easy") ∧
    problem_from_subject "hello world" = none := by
  refine ⟨?_, ?_, ?_⟩
  · exact c5_subject_parsing.2.1 ['7', '6', '1'] "Medium".data (by decide) (by decide)
      (by decide) (by decide)
  · exact c5_subject_parsing.2.2 ['5'] (by decide) (by decide)
  · exact c5_subject_parsing.1 "hello world" (noHash_no_token _ (by decide))

/-! C7: link extraction from text. -/

/-- Bracketed form of a link content, as matched by the lazy bracket regex. -/
def brMatch (u : List Char) : List Char := '[' :: (u ++ [']'])

theorem leadsWith_iff (p : List Char) :
    ∀ cs : List Char, leadsWith p cs = true ↔ ∃ t, cs = p ++ t := by
  induction p with
  | nil =>
    intro cs
    simp [leadsWith]
  | cons a p ih =>
    intro cs
    cases cs with
    | nil =>
      constructor
      · intro h
        simp [leadsWith] at h
      · rintro ⟨t, ht⟩
        simp at ht
    | cons b cs =>
      simp only [leadsWith, Bool.and_eq_true, decide_eq_true_eq, ih, List.cons_append,
        List.cons.injEq]
      constructor
      · rintro ⟨hab, t, ht⟩
        exact ⟨t, hab.symm, ht⟩
      · rintro ⟨t, hba, ht⟩
        exact ⟨hba.symm, t, ht⟩

theorem isMarkerAt_iff (cs : List Char) :
    isMarkerAt cs = true ↔ ∃ (c : Char) (t : List Char),
      cs = markerPre ++ (c :: (markerPost ++ t)) ∧ ¬ c = '\n' := by
  constructor
  · intro h
    unfold isMarkerAt at h
    rw [Bool.and_eq_true] at h
    rcases h with ⟨h1, h2⟩
    rcases (leadsWith_iff _ _).mp h1 with ⟨t0, rfl⟩
    rw [List.drop_left] at h2
    cases t0 with
    | nil => simp at h2
    | cons c rest =>
      simp only at h2
      by_cases hnl : c = '\n'
      · rw [if_pos hnl] at h2
        cases h2
      · rw [if_neg hnl] at h2
        rcases (leadsWith_iff _ _).mp h2 with ⟨t, rfl⟩
        exact ⟨c, t, rfl, hnl⟩
  · rintro ⟨c, t, rfl, hnl⟩
    unfold isMarkerAt
    rw [Bool.and_eq_true]
    constructor
    · exact (leadsWith_iff _ _).mpr ⟨c :: (markerPost ++ t), rfl⟩
    · rw [List.drop_left]
      simp only
      rw [if_neg hnl]
      exact (leadsWith_iff _ _).mpr ⟨t, rfl⟩

theorem containsMarker_iff (cs : List Char) :
    containsMarker cs = true ↔ ∃ (x : List Char) (c : Char) (t : List Char),
      cs = x ++ (markerPre ++ (c :: (markerPost ++ t))) ∧ ¬ c = '\n' := by
  induction cs with
  | nil =>
    constructor
    · intro h
      simp [containsMarker] at h
    · rintro ⟨x, c, t, hx, -⟩
      have hlen := congrArg List.length hx
      simp [List.length_append] at hlen
      omega
  | cons a cs ih =>
    constructor
    · intro h
      have h' : isMarkerAt (a :: cs) = true ∨ containsMarker cs = true := by
        have h2 : (isMarkerAt (a :: cs) || containsMarker cs) = true := by
          simpa [containsMarker] using h
        rwa [Bool.or_eq_true] at h2
      rcases h' with h1 | h2
      · rcases (isMarkerAt_iff _).mp h1 with ⟨c, t, hx, hnl⟩
        exact ⟨[], c, t, by simpa using hx, hnl⟩
      · rcases ih.mp h2 with ⟨x, c, t, hx, hnl⟩
        exact ⟨a :: x, c, t, by rw [hx]; rfl, hnl⟩
    · rintro ⟨x, c, t, hx, hnl⟩
      have hgoal : (isMarkerAt (a :: cs) || containsMarker cs) = true := by
        rw [Bool.or_eq_true]
        cases x with
        | nil =>
          left
          exact (isMarkerAt_iff _).mpr ⟨c, t, by simpa using hx, hnl⟩
        | cons b x =>
          right
          rw [List.cons_append] at hx
          injection hx with hab htail
          exact ih.mpr ⟨x, c, t, htail, hnl⟩
      simpa [containsMarker] using hgoal

theorem snoc_inj (a b : List α) (x y : α) (h : a ++ [x] = b ++ [y]) :
    a = b ∧ x = y := by
  have h2 := congrArg List.reverse h
  simp only [List.reverse_append, List.reverse_cons, List.reverse_nil, List.nil_append,
    List.cons_append, List.cons.injEq] at h2
  refine ⟨?_, h2.1⟩
  have h3 := congrArg List.reverse h2.2
  simpa using h3

theorem containsMarker_brMatch (u : List Char) :
    containsMarker (brMatch u) = containsMarker u := by
  have forward : containsMarker (brMatch u) = true → containsMarker u = true := by
    intro h
    rcases (containsMarker_iff _).mp h with ⟨x, c, t, hx, hnl⟩
    cases x with
    | nil =>
      exfalso
      rw [List.nil_append,
        show markerPre = 'd' :: "ailycodingproblem".data from by decide] at hx
      simp only [brMatch, List.cons_append, List.cons.injEq] at hx
      exact absurd hx.1 (by decide)
    | cons b x =>
      simp only [brMatch, List.cons_append, List.cons.injEq] at hx
      have htail : u ++ [']'] = x ++ (markerPre ++ (c :: (markerPost ++ t))) := hx.2
      rcases List.eq_nil_or_concat t with rfl | ⟨t0, z, rfl⟩
      · exfalso
        rw [List.append_nil,
          show markerPost = "com/solutio".data ++ ['n'] from by decide] at htail
        have hre : x ++ (markerPre ++ (c :: ("com/solutio".data ++ ['n'])))
            = (x ++ (markerPre ++ (c :: "com/solutio".data))) ++ ['n'] := by
          simp
        rw [hre] at htail
        exact absurd (snoc_inj _ _ _ _ htail).2 (by decide)
      · exact (containsMarker_iff _).mpr ⟨x, c, t0, by
          rw [List.concat_eq_append] at htail
          have hre : x ++ (markerPre ++ (c :: (markerPost ++ (t0 ++ [z]))))
              = (x ++ (markerPre ++ (c :: (markerPost ++ t0)))) ++ [z] := by
            simp
          rw [hre] at htail
          exact (snoc_inj _ _ _ _ htail).1, hnl⟩
  have backward : containsMarker u = true → containsMarker (brMatch u) = true := by
    intro h
    rcases (containsMarker_iff _).mp h with ⟨x, c, t, rfl, hnl⟩
    exact (containsMarker_iff _).mpr ⟨'[' :: x, c, t ++ [']'], by simp [brMatch], hnl⟩
  rcases Bool.eq_false_or_eq_true (containsMarker u) with ht | hf
  · rw [ht]
    exact backward ht
  · rw [hf]
    rcases Bool.eq_false_or_eq_true (containsMarker (brMatch u)) with hbt | hbf
    · exact absurd (forward hbt) (by simp [hf])
    · exact hbf

theorem brMatch_inj (u v : List Char) (h : brMatch u = brMatch v) : u = v := by
  simp only [brMatch, List.cons.injEq] at h
  exact (snoc_inj _ _ _ _ h.2).1

theorem stripSquare_brMatch (u : List Char)
    (h : ∀ ch ∈ u, ¬ ch = '[' ∧ ¬ ch = ']') : stripSquare (brMatch u) = u := by
  rw [show brMatch u = ['['] ++ (u ++ [']']) from rfl, stripSquare_append, stripSquare_append,
    stripSquare_of_clean u h, show stripSquare ['['] = [] from rfl,
    show stripSquare [']'] = [] from rfl]
  simp

theorem findallLazyF_fuel (f1 : Nat) :
    ∀ (cs : List Char) (f2 : Nat), cs.length ≤ f1 → cs.length ≤ f2 →
      findallLazyF f1 cs = findallLazyF f2 cs := by
  induction f1 with
  | zero =>
    intro cs f2 h1 h2
    have hnil : cs = [] := List.eq_nil_of_length_eq_zero (Nat.le_zero.mp h1)
    subst hnil
    cases f2 <;> rfl
  | succ f1 ih =>
    intro cs f2 h1 h2
    cases cs with
    | nil => cases f2 <;> rfl
    | cons c cs =>
      cases f2 with
      | zero => simp at h2
      | succ f2 =>
        have hl1 : cs.length ≤ f1 := by
          rw [List.length_cons] at h1
          omega
        have hl2 : cs.length ≤ f2 := by
          rw [List.length_cons] at h2
          omega
        by_cases hc : c = '['
        · subst hc
          cases hcl : findCloseAux cs 0 with
          | some k =>
            have hd : (cs.drop (k + 1)).length ≤ cs.length := by
              rw [List.length_drop]
              omega
            have e1 : findallLazyF (f1 + 1) ('[' :: cs)
                = ('[' :: cs.take (k + 1)) :: findallLazyF f1 (cs.drop (k + 1)) := by
              simp [findallLazyF, hcl]
            have e2 : findallLazyF (f2 + 1) ('[' :: cs)
                = ('[' :: cs.take (k + 1)) :: findallLazyF f2 (cs.drop (k + 1)) := by
              simp [findallLazyF, hcl]
            rw [e1, e2, ih (cs.drop (k + 1)) f2 (le_trans hd hl1) (le_trans hd hl2)]
          | none =>
            have e1 : findallLazyF (f1 + 1) ('[' :: cs) = findallLazyF f1 cs := by
              simp [findallLazyF, hcl]
            have e2 : findallLazyF (f2 + 1) ('[' :: cs) = findallLazyF f2 cs := by
              simp [findallLazyF, hcl]
            rw [e1, e2, ih cs f2 hl1 hl2]
        · simp only [findallLazyF, if_neg hc]
          exact ih cs f2 hl1 hl2

theorem findallLazy_append_no_open (a : List Char) :
    ∀ (rest : List Char) (f : Nat), (∀ c ∈ a, ¬ c = '[') → (a ++ rest).length ≤ f →
      findallLazyF f (a ++ rest) = findallLazy rest := by
  induction a with
  | nil =>
    intro rest f h hf
    simp only [List.nil_append] at hf ⊢
    exact findallLazyF_fuel f rest rest.length hf (le_refl _)
  | cons c a ih =>
    intro rest f h hf
    have hc : ¬ c = '[' := h c (List.mem_cons_self _ _)
    cases f with
    | zero => simp at hf
    | succ f =>
      simp only [List.cons_append, findallLazyF, if_neg hc]
      refine ih rest f (fun d hd => h d (List.mem_cons_of_mem _ hd)) ?_
      simp only [List.cons_append, List.length_cons] at hf
      omega

theorem findCloseAux_clean (u : List Char) :
    ∀ (t : List Char) (i : Nat), (∀ c ∈ u, ¬ c = ']' ∧ ¬ c = '\n') → (¬ u = [] ∨ 1 ≤ i) →
      findCloseAux (u ++ ']' :: t) i = some (i + u.length) := by
  induction u with
  | nil =>
    intro t i h hi
    rcases hi with hi | hi
    · exact absurd rfl hi
    · simp [findCloseAux, hi]
  | cons c u ih =>
    intro t i h hi
    have hc := h c (List.mem_cons_self _ _)
    have hrec := ih t (i + 1) (fun d hd => h d (List.mem_cons_of_mem _ hd))
      (Or.inr (by omega))
    have harith : i + 1 + u.length = i + (u.length + 1) := by omega
    simp only [List.cons_append, findCloseAux, List.append_eq, hc.1, hc.2, false_and,
      if_false, hrec, List.length_cons, harith]

theorem drop_len_plus (u : List α) (r : List α) (n : Nat) :
    (u ++ r).drop (u.length + n) = r.drop n := by
  induction u with
  | nil => simp
  | cons c u ih =>
    have harith : (c :: u).length + n = (u.length + n) + 1 := by
      rw [List.length_cons]
      omega
    rw [harith, List.cons_append, List.drop_succ_cons, ih]

theorem findallLazy_brMatch (u : List Char) :
    ∀ (t : List Char) (f : Nat), ¬ u = [] → (∀ c ∈ u, ¬ c = ']' ∧ ¬ c = '\n') →
      (brMatch u ++ t).length ≤ f →
      findallLazyF f (brMatch u ++ t) = brMatch u :: findallLazy t := by
  intro t f hu hcl hf
  cases f with
  | zero => simp [brMatch] at hf
  | succ f =>
    have hshape : brMatch u ++ t = '[' :: (u ++ ']' :: t) := by simp [brMatch]
    rw [hshape]
    simp only [findallLazyF, if_pos rfl]
    rw [findCloseAux_clean u t 0 hcl (Or.inl hu)]
    simp only [Nat.zero_add]
    have htake : (u ++ ']' :: t).take (u.length + 1) = u ++ [']'] := by
      rw [take_len_plus]
      rfl
    have hdrop : (u ++ ']' :: t).drop (u.length + 1) = t := by
      rw [drop_len_plus]
      rfl
    rw [htake, hdrop]
    have hft : t.length ≤ f := by
      rw [hshape] at hf
      simp only [List.length_cons, List.length_append] at hf
      omega
    rw [show findallLazyF f t = findallLazy t from
      findallLazyF_fuel f t t.length hft (le_refl _)]
    rfl

theorem findallLazy_no_open (c : List Char) (h : ∀ d ∈ c, ¬ d = '[') :
    findallLazy c = [] := by
  have h2 := findallLazy_append_no_open c [] c.length h (by simp)
  rw [List.append_nil] at h2
  exact h2.trans rfl

/-- C7 amended: for a text holding two bracketed segments, link extraction
returns exactly the segments containing the solution-domain marker, with the
bracket characters removed: equal segments are deduplicated into one entry
(the set dedup runs on the bracketed matches), while distinct segments, for
example two links differing only in their token query parameter, are both
kept. The counterexample shows the dedup happens before the brackets are
stripped, so two matches differing only by an interior bracket collapse to
equal strings and the result can contain duplicates, which the original claim
excluded. -/
theorem c7_links_from_text (a u b v c : List Char)
    (hu : ¬ u = []) (hv : ¬ v = [])
    (hucl : ∀ ch ∈ u, ¬ ch = '[' ∧ ¬ ch = ']' ∧ ¬ ch = '\n')
    (hvcl : ∀ ch ∈ v, ¬ ch = '[' ∧ ¬ ch = ']' ∧ ¬ ch = '\n')
    (ha : ∀ ch ∈ a, ¬ ch = '[') (hb : ∀ ch ∈ b, ¬ ch = '[')
    (hc : ∀ ch ∈ c, ¬ ch = '[') :
    get_solution_links_from_text
        (String.mk (a ++ brMatch u ++ b ++ brMatch v ++ c))
      = if containsMarker u = true then
          (if containsMarker v = true ∧ ¬ v = u then [String.mk u, String.mk v]
           else [String.mk u])
        else (if containsMarker v = true then [String.mk v] else []) := by
  have hs : a ++ brMatch u ++ b ++ brMatch v ++ c
      = a ++ (brMatch u ++ (b ++ (brMatch v ++ c))) := by
    simp [List.append_assoc]
  have hfind : findallLazy (a ++ (brMatch u ++ (b ++ (brMatch v ++ c))))
      = [brMatch u, brMatch v] := by
    show findallLazyF (a ++ (brMatch u ++ (b ++ (brMatch v ++ c)))).length _ = _
    rw [findallLazy_append_no_open a _ _ ha (le_refl _)]
    show findallLazyF (brMatch u ++ (b ++ (brMatch v ++ c))).length _ = _
    rw [findallLazy_brMatch u _ _ hu (fun ch hm => ⟨(hucl ch hm).2.1, (hucl ch hm).2.2⟩)
      (le_refl _)]
    show brMatch u :: findallLazyF (b ++ (brMatch v ++ c)).length _ = _
    rw [findallLazy_append_no_open b _ _ hb (le_refl _)]
    show brMatch u :: findallLazyF (brMatch v ++ c).length _ = _
    rw [findallLazy_brMatch v _ _ hv (fun ch hm => ⟨(hvcl ch hm).2.1, (hvcl ch hm).2.2⟩)
      (le_refl _),
      findallLazy_no_open c hc]
  have hdata : (String.mk (a ++ brMatch u ++ b ++ brMatch v ++ c)).data
      = a ++ (brMatch u ++ (b ++ (brMatch v ++ c))) := by
    rw [show (String.mk (a ++ brMatch u ++ b ++ brMatch v ++ c)).data
        = a ++ brMatch u ++ b ++ brMatch v ++ c from rfl, hs]
  have hstripu : stripSquare (brMatch u) = u :=
    stripSquare_brMatch u fun ch hm => ⟨(hucl ch hm).1, (hucl ch hm).2.1⟩
  have hstripv : stripSquare (brMatch v) = v :=
    stripSquare_brMatch v fun ch hm => ⟨(hvcl ch hm).1, (hvcl ch hm).2.1⟩
  have hmain : get_solution_links_from_text
      (String.mk (a ++ brMatch u ++ b ++ brMatch v ++ c))
      = (pyDedup (List.filter containsMarker [brMatch u, brMatch v])).map
          (fun l => String.mk (stripSquare l)) := by
    unfold get_solution_links_from_text
    rw [hdata, hfind]
  rw [hmain]
  rcases Bool.eq_false_or_eq_true (containsMarker u) with hcu | hcu <;>
    rcases Bool.eq_false_or_eq_true (containsMarker v) with hcv | hcv
  · by_cases hvu : v = u
    · subst hvu
      simp [List.filter_cons, containsMarker_brMatch, hcu, hcv, pyDedup, pyDedupAux,
        hstripv]
    · have hbne : ¬ brMatch v = brMatch u := fun hEq => hvu (brMatch_inj v u hEq)
      simp [List.filter_cons, containsMarker_brMatch, hcu, hcv, pyDedup, pyDedupAux,
        hstripu, hstripv, hvu, hbne]
  · simp [List.filter_cons, containsMarker_brMatch, hcu, hcv, pyDedup, pyDedupAux, hstripu]
  · simp [List.filter_cons, containsMarker_brMatch, hcu, hcv, pyDedup, pyDedupAux, hstripv]
  · simp [List.filter_cons, containsMarker_brMatch, hcu, hcv, pyDedup, pyDedupAux]

/-- C7 counterexample: two bracket matches that differ only by an interior
open bracket survive the set dedup as distinct matches, but stripping every
bracket character collapses them to the same string, so the returned list
contains that link string twice and is not deduplicated by exact string
equality. -/
theorem c7_interior_bracket_duplicate :
    (get_solution_links_from_text
        "[a[dailycodingproblem.com/solution] [adailycodingproblem.com/solution]").count
      "adailycodingproblem.com/solution" = 2 := by
  decide

/-- Witness for C7: two links to the same problem differing only in their
token parameter are both kept, as distinct entries. -/
theorem c7_links_from_text_witness :
    get_solution_links_from_text
        "see [dailycodingproblem.com/solution?id=1&token=aa] and [dailycodingproblem.com/solution?id=1&token=bb]"
      = ["dailycodingproblem.com/solution?id=1&token=aa",
         "dailycodingproblem.com/solution?id=1&token=bb"] := by
  have h := c7_links_from_text "see ".data
    "dailycodingproblem.com/solution?id=1&token=aa".data " and ".data
    "dailycodingproblem.com/solution?id=1&token=bb".data []
    (by decide) (by decide) (by decide) (by decide) (by decide) (by decide) (by decide)
  exact h.trans (by decide)

end Dcp
